import Mathlib

/-!
Verification of the go-safeslice repository (package `safeslice`,
file `src/safeslice.go`) against its natural-language specification.

The development has two layers.

1. A functional model: a `SafeSlice` is its logical element list `data`
   together with the `appendOnlyAlloc` flag.  Each mutating method is
   translated line by line from the Go source.  Go runtime panics
   (out-of-range slice indexing, `make` with a negative length) are
   modelled by `ok = false` in the returned `OpResult`; the `state`
   field of the result records the fields of the receiver at the moment
   the method returned or panicked, since in Go mutations performed
   before a panic persist in the receiver.

2. A heap model (`GoState`, `step`): the same code, but with backing
   allocations made explicit, so that aliasing between the container and
   the slices returned by `Get` is visible.  This is needed for the
   view-stability property, which is about allocations, not values.
-/

/-- Functional model of the `SafeSlice` struct (src/safeslice.go):
`data []T` is the logical element sequence, `appendOnlyAlloc bool` is the
"may be aliased by an earlier Get" flag. -/
structure SafeSlice (T : Type) where
  data : List T
  appendOnlyAlloc : Bool
deriving DecidableEq

/-- Result of one mutating method call.  `ok = false` means the call hit a
Go runtime panic (index out of range / makeslice with negative length).
`copied = true` means the method replaced `data` with a freshly allocated
backing array (the defensive copy).  `state` is the receiver's fields when
the method returned, or at the moment of the panic (mutations done before
a panic persist in Go). -/
structure OpResult (T : Type) where
  ok : Bool
  copied : Bool
  state : SafeSlice T
deriving DecidableEq

/-- Model of `copyDeleteFromArray` (src/safeslice.go lines 7-16).
Go text: `b := make([]T, len(s)-1); copy(b[:i], s[:i]);
if i < len(s)-1 { copy(b[i:], s[i+1:]) }; return b`.
The `make` call panics when `len(s)-1 < 0`; the slice expression `b[:i]`
panics when `i < 0` or `i > len(b) = len(s)-1`.  When `i < len(s)-1` the
two copies fill `b` with `s[0:i]` followed by `s[i+1:len(s)]`; when
`i = len(s)-1` only the first copy runs and fills all of `b` with
`s[0:i]`.  Panics are returned as `none`. -/
def copyDeleteFromArray {T : Type} (s : List T) (i : Int) : Option (List T) :=
  if (s.length : Int) - 1 < 0 then
    none
  else if i < 0 ∨ (s.length : Int) - 1 < i then
    none
  else if i < (s.length : Int) - 1 then
    some (s.take i.toNat ++ s.drop (i.toNat + 1))
  else
    some (s.take i.toNat)

/-- Model of `slices.Delete(s, i, j)` from `golang.org/x/exp/slices`, as
called by `Remove` (src/safeslice.go line 88) with `j = i+1`.  Its
documented contract: it removes the elements `s[i:j]`, returning
`append(s[:i], s[j:]...)`, and panics when `s[i:j]` is not a valid slice
of `s` (that is, unless `0 ≤ i ≤ j ≤ len(s)`).  The append writes into
the same backing array, so no new allocation is made. -/
def slicesDelete {T : Type} (s : List T) (i j : Int) : Option (List T) :=
  if i < 0 ∨ j < i ∨ (s.length : Int) < j then
    none
  else
    some (s.take i.toNat ++ s.drop j.toNat)

/-- Effect of the three-statement element exchange in `Swap`
(src/safeslice.go lines 102-104): `swap := s.data[i]; s.data[i] =
s.data[j]; s.data[j] = swap`, for in-range indices.  The fallback branch
is never reached when both indices are in range. -/
def listSwap {T : Type} (l : List T) (i j : Nat) : List T :=
  match l.get? i, l.get? j with
  | some a, some b => (l.set i b).set j a
  | _, _ => l

/-- Model of `New` (src/safeslice.go lines 115-120): `data = nil`,
`appendOnlyAlloc = false`. -/
def New (T : Type) : SafeSlice T :=
  ⟨[], false⟩

/-- Model of `Append` (src/safeslice.go lines 74-77):
`s.data = append(s.data, elem)`.  The flag is untouched. -/
def SafeSlice.Append {T : Type} (s : SafeSlice T) (elem : T) : SafeSlice T :=
  ⟨s.data ++ [elem], s.appendOnlyAlloc⟩

/-- Model of `Get` (src/safeslice.go lines 107-113): sets
`appendOnlyAlloc = true` and returns the current data slice together with
the updated container. -/
def SafeSlice.Get {T : Type} (s : SafeSlice T) : List T × SafeSlice T :=
  (s.data, ⟨s.data, true⟩)

/-- Model of `Remove` (src/safeslice.go lines 79-89).
If `appendOnlyAlloc` is set: `s.data = copyDeleteFromArray(s.data, index);
s.appendOnlyAlloc = false`.  A panic inside `copyDeleteFromArray` happens
before either assignment, so the receiver is unchanged in that case.
Otherwise: `s.data = slices.Delete(s.data, index, index+1)`, which
mutates in place (no fresh allocation) and leaves the flag untouched
(it is already false in this branch). -/
def SafeSlice.Remove {T : Type} (s : SafeSlice T) (index : Int) : OpResult T :=
  if s.appendOnlyAlloc then
    match copyDeleteFromArray s.data index with
    | some b => ⟨true, true, ⟨b, false⟩⟩
    | none => ⟨false, false, s⟩
  else
    match slicesDelete s.data index (index + 1) with
    | some b => ⟨true, false, ⟨b, s.appendOnlyAlloc⟩⟩
    | none => ⟨false, false, s⟩

/-- Model of `Swap` (src/safeslice.go lines 91-105).
Line 93: `if i == j { return }` - before any bounds check or storage
access.  Lines 97-100: if `appendOnlyAlloc` is set, `s.data =
append([]T{}, s.data...)` (a full fresh copy) and the flag is cleared -
note this happens before the element accesses, so it persists even if
the subsequent indexing panics.  Lines 102-104 exchange the two
elements; `s.data[i]` / `s.data[j]` panic when an index is out of range,
and by Go's two-phase assignment semantics no element is written unless
both indices are in range. -/
def SafeSlice.Swap {T : Type} (s : SafeSlice T) (i j : Int) : OpResult T :=
  if i = j then
    ⟨true, false, s⟩
  else
    let copied := s.appendOnlyAlloc
    let s1 : SafeSlice T := if s.appendOnlyAlloc then ⟨s.data, false⟩ else s
    if 0 ≤ i ∧ i < (s1.data.length : Int) ∧ 0 ≤ j ∧ j < (s1.data.length : Int) then
      ⟨true, copied, ⟨listSwap s1.data i.toNat j.toNat, s1.appendOnlyAlloc⟩⟩
    else
      ⟨false, copied, s1⟩

example : (SafeSlice.Swap (⟨[0], true⟩ : SafeSlice Nat) 0 2).state.appendOnlyAlloc = false := by
  decide

example : (SafeSlice.Remove (⟨[10, 20], true⟩ : SafeSlice Nat) 0).state.data = [20] := by
  decide

example : (SafeSlice.Remove (⟨[10, 20], false⟩ : SafeSlice Nat) 1).state.data = [10] := by
  decide

example : (SafeSlice.Swap (⟨[1, 2, 3], false⟩ : SafeSlice Nat) 1 2).state.data = [1, 3, 2] := by
  decide

/-! Basic facts about the two delete helpers. -/

theorem copyDeleteFromArray_eq {T : Type} (s : List T) (i : Int)
    (h1 : 0 ≤ i) (h2 : i < (s.length : Int)) :
    copyDeleteFromArray s i = some (s.take i.toNat ++ s.drop (i.toNat + 1)) := by
  unfold copyDeleteFromArray
  by_cases hlt : i < (s.length : Int) - 1
  · rw [if_neg (by omega), if_neg (by omega), if_pos hlt]
  · rw [if_neg (by omega), if_neg (by omega), if_neg hlt]
    have hdrop : i.toNat + 1 = s.length := by omega
    rw [hdrop, List.drop_length, List.append_nil]

theorem copyDeleteFromArray_eq_none_iff {T : Type} (s : List T) (i : Int) :
    copyDeleteFromArray s i = none ↔ (i < 0 ∨ (s.length : Int) ≤ i) := by
  unfold copyDeleteFromArray
  split_ifs <;> simp <;> omega

theorem slicesDelete_eq {T : Type} (s : List T) (i : Int)
    (h1 : 0 ≤ i) (h2 : i < (s.length : Int)) :
    slicesDelete s i (i + 1) = some (s.take i.toNat ++ s.drop (i.toNat + 1)) := by
  unfold slicesDelete
  rw [if_neg (by omega)]
  have htn : (i + 1).toNat = i.toNat + 1 := by omega
  rw [htn]

theorem slicesDelete_eq_none_iff {T : Type} (s : List T) (i : Int) :
    slicesDelete s i (i + 1) = none ↔ (i < 0 ∨ (s.length : Int) ≤ i) := by
  unfold slicesDelete
  split_ifs <;> simp <;> omega

/-- C9: the defensive-copy branch of Remove (`copyDeleteFromArray`) and the
in-place branch (`slices.Delete(s, i, i+1)`) produce the same element
sequence for every in-range index: the branch choice affects only
allocation, never logical contents. -/
theorem c9_remove_branches_equivalent {T : Type} (s : List T) (i : Int)
    (h1 : 0 ≤ i) (h2 : i < (s.length : Int)) :
    copyDeleteFromArray s i = slicesDelete s i (i + 1) := by
  rw [copyDeleteFromArray_eq s i h1 h2, slicesDelete_eq s i h1 h2]

/-- Witness for C9 at a concrete input. -/
theorem c9_witness :
    (0 : Int) ≤ 1 ∧ (1 : Int) < (([5, 6, 7] : List Nat).length : Int) ∧
    copyDeleteFromArray ([5, 6, 7] : List Nat) 1 = slicesDelete ([5, 6, 7] : List Nat) 1 2 :=
  ⟨by decide, by decide, c9_remove_branches_equivalent [5, 6, 7] 1 (by decide) (by decide)⟩

/-- C4: Remove at an in-range index succeeds, the resulting contents are
the old elements before the index followed by the old elements after it
(the old contents with that position skipped), and the length drops by
one.  When `appendOnlyAlloc` was set this is done via the freshly
allocated copy and the flag is cleared; otherwise in place with no new
allocation. -/
theorem c4_remove_correct {T : Type} (s : SafeSlice T) (index : Int)
    (h1 : 0 ≤ index) (h2 : index < (s.data.length : Int)) :
    (s.Remove index).ok = true ∧
    (s.Remove index).state.data
      = s.data.take index.toNat ++ s.data.drop (index.toNat + 1) ∧
    (s.Remove index).state.data.length + 1 = s.data.length ∧
    (s.appendOnlyAlloc = true →
      (s.Remove index).copied = true ∧ (s.Remove index).state.appendOnlyAlloc = false) ∧
    (s.appendOnlyAlloc = false →
      (s.Remove index).copied = false ∧ (s.Remove index).state.appendOnlyAlloc = false) := by
  have hlen : (s.data.take index.toNat ++ s.data.drop (index.toNat + 1)).length + 1
      = s.data.length := by
    rw [List.length_append, List.length_take, List.length_drop]
    omega
  cases hb : s.appendOnlyAlloc <;>
    simp [SafeSlice.Remove, hb, copyDeleteFromArray_eq s.data index h1 h2,
      slicesDelete_eq s.data index h1 h2, hlen] <;>
    omega

/-- Witness for C4 at a concrete input. -/
theorem c4_witness :
    (0 : Int) ≤ 1 ∧ (1 : Int) < (((⟨[4, 5, 6], true⟩ : SafeSlice Nat)).data.length : Int) ∧
    (SafeSlice.Remove (⟨[4, 5, 6], true⟩ : SafeSlice Nat) 1).state.data = [4, 6] := by
  refine ⟨by decide, by decide, ?_⟩
  have h := c4_remove_correct (⟨[4, 5, 6], true⟩ : SafeSlice Nat) 1 (by decide) (by decide)
  exact h.2.1

/-- C10: the `i == j` fast path of Swap returns before any bounds check,
defensive copy, or storage access: for every integer `i`, in range or
not, `Swap i i` succeeds, copies nothing and leaves the container
exactly as it was. -/
theorem c10_swap_self_skips_bounds_check {T : Type} (s : SafeSlice T) (i : Int) :
    s.Swap i i = ⟨true, false, s⟩ := by
  simp [SafeSlice.Swap]

/-- C6: for an in-range index, Swap of an index with itself is a no-op:
the call succeeds, the container (contents and flag) is unchanged, and
no defensive copy or allocation is performed, even when
`appendOnlyAlloc` is set. -/
theorem c6_swap_self_noop {T : Type} (s : SafeSlice T) (i : Int)
    (h1 : 0 ≤ i) (h2 : i < (s.data.length : Int)) :
    (s.Swap i i).ok = true ∧ (s.Swap i i).state = s ∧ (s.Swap i i).copied = false := by
  simp [SafeSlice.Swap]

/-- Witness for C6 at a concrete input. -/
theorem c6_witness :
    (0 : Int) ≤ 0 ∧ (0 : Int) < (((⟨[9], true⟩ : SafeSlice Nat)).data.length : Int) ∧
    (SafeSlice.Swap (⟨[9], true⟩ : SafeSlice Nat) 0 0).state = (⟨[9], true⟩ : SafeSlice Nat) :=
  ⟨by decide, by decide, (c6_swap_self_noop (⟨[9], true⟩ : SafeSlice Nat) 0 (by decide) (by decide)).2.1⟩

/-! Facts about the element exchange. -/

theorem listSwap_length {T : Type} (l : List T) (i j : Nat) :
    (listSwap l i j).length = l.length := by
  unfold listSwap
  cases h1 : l.get? i <;> cases h2 : l.get? j <;> simp

theorem listSwap_get_left {T : Type} (l : List T) (i j : Nat)
    (hi : i < l.length) (hj : j < l.length) (hij : i ≠ j) :
    (listSwap l i j).get? i = l.get? j := by
  have ha := List.get?_eq_get hi
  have hb := List.get?_eq_get hj
  unfold listSwap
  rw [ha, hb, List.get?_set_ne _ _ (Ne.symm hij), List.get?_set_eq_of_lt _ hi]

theorem listSwap_get_right {T : Type} (l : List T) (i j : Nat)
    (hi : i < l.length) (hj : j < l.length) :
    (listSwap l i j).get? j = l.get? i := by
  have ha := List.get?_eq_get hi
  have hb := List.get?_eq_get hj
  unfold listSwap
  rw [ha, hb, List.get?_set_eq_of_lt]
  simpa using hj

theorem listSwap_get_other {T : Type} (l : List T) (i j k : Nat)
    (hk1 : k ≠ i) (hk2 : k ≠ j) :
    (listSwap l i j).get? k = l.get? k := by
  unfold listSwap
  cases h1 : l.get? i <;> cases h2 : l.get? j <;> try rfl
  rw [List.get?_set_ne _ _ (Ne.symm hk2), List.get?_set_ne _ _ (Ne.symm hk1)]

/-! Unfolding lemmas for Swap on distinct indices. -/

theorem swap_eq_of_valid {T : Type} (s : SafeSlice T) (i j : Int) (hij : i ≠ j)
    (h1 : 0 ≤ i) (h2 : i < (s.data.length : Int))
    (h3 : 0 ≤ j) (h4 : j < (s.data.length : Int)) :
    s.Swap i j = ⟨true, s.appendOnlyAlloc, ⟨listSwap s.data i.toNat j.toNat, false⟩⟩ := by
  obtain ⟨d, b⟩ := s
  cases b <;> simp_all [SafeSlice.Swap]

theorem swap_eq_of_invalid {T : Type} (s : SafeSlice T) (i j : Int) (hij : i ≠ j)
    (h : ¬(0 ≤ i ∧ i < (s.data.length : Int) ∧ 0 ≤ j ∧ j < (s.data.length : Int))) :
    s.Swap i j = ⟨false, s.appendOnlyAlloc, ⟨s.data, false⟩⟩ := by
  obtain ⟨d, b⟩ := s
  cases b <;> simp_all [SafeSlice.Swap]

/-- C5: Swap of two distinct in-range indices succeeds and exchanges
exactly those two positions: the length is unchanged, position `i` now
holds the old element of `j` and vice versa, and every other position is
untouched.  A defensive copy is made exactly when `appendOnlyAlloc` was
set, and the flag is clear afterwards (an in-place exchange when it was
already clear). -/
theorem c5_swap_correct {T : Type} (s : SafeSlice T) (i j : Int) (hij : i ≠ j)
    (h1 : 0 ≤ i) (h2 : i < (s.data.length : Int))
    (h3 : 0 ≤ j) (h4 : j < (s.data.length : Int)) :
    (s.Swap i j).ok = true ∧
    (s.Swap i j).state.data.length = s.data.length ∧
    (s.Swap i j).state.data.get? i.toNat = s.data.get? j.toNat ∧
    (s.Swap i j).state.data.get? j.toNat = s.data.get? i.toNat ∧
    (∀ k : Nat, k ≠ i.toNat → k ≠ j.toNat →
      (s.Swap i j).state.data.get? k = s.data.get? k) ∧
    (s.Swap i j).copied = s.appendOnlyAlloc ∧
    (s.Swap i j).state.appendOnlyAlloc = false := by
  have hi : i.toNat < s.data.length := by omega
  have hj : j.toNat < s.data.length := by omega
  have hij2 : i.toNat ≠ j.toNat := by omega
  rw [swap_eq_of_valid s i j hij h1 h2 h3 h4]
  refine ⟨rfl, listSwap_length _ _ _, listSwap_get_left _ _ _ hi hj hij2,
    listSwap_get_right _ _ _ hi hj, ?_, rfl, rfl⟩
  intro k hk1 hk2
  exact listSwap_get_other s.data i.toNat j.toNat k hk1 hk2

/-- Witness for C5 at a concrete input. -/
theorem c5_witness :
    ((0 : Int) ≠ 2) ∧
    (SafeSlice.Swap (⟨[1, 2, 3], true⟩ : SafeSlice Nat) 0 2).state.data.get? 0
      = ([1, 2, 3] : List Nat).get? 2 := by
  refine ⟨by decide, ?_⟩
  have h := c5_swap_correct (⟨[1, 2, 3], true⟩ : SafeSlice Nat) 0 2
    (by decide) (by decide) (by decide) (by decide) (by decide)
  simpa using h.2.2.1

/-! Unfolding lemmas for Remove. -/

theorem remove_eq_of_invalid {T : Type} (s : SafeSlice T) (index : Int)
    (h : ¬(0 ≤ index ∧ index < (s.data.length : Int))) :
    s.Remove index = ⟨false, false, s⟩ := by
  obtain ⟨d, b⟩ := s
  have hc : copyDeleteFromArray d index = none :=
    (copyDeleteFromArray_eq_none_iff d index).2 (by simp at h; omega)
  have hs : slicesDelete d index (index + 1) = none :=
    (slicesDelete_eq_none_iff d index).2 (by simp at h; omega)
  cases b <;> simp [SafeSlice.Remove, hc, hs]

theorem remove_ok_iff {T : Type} (s : SafeSlice T) (index : Int) :
    (s.Remove index).ok = true ↔ (0 ≤ index ∧ index < (s.data.length : Int)) := by
  by_cases hv : 0 ≤ index ∧ index < (s.data.length : Int)
  · obtain ⟨d, b⟩ := s
    cases b <;>
      simp_all [SafeSlice.Remove, copyDeleteFromArray_eq d index hv.1 hv.2,
        slicesDelete_eq d index hv.1 hv.2]
  · rw [remove_eq_of_invalid s index hv]
    simpa using hv

/-- C2 counterexample: the claim asserts that on an invalid index the
container's contents and flag are exactly as before the call because
bounds are validated before any copy begins, and that Remove and Swap
fail exactly when an index is out of range.  Both parts fail on `Swap`:
on `⟨[0], appendOnlyAlloc = true⟩`, the call `Swap 0 2` panics with the
flag already cleared to `false` (the defensive copy runs before the
bounds are consulted), and `Swap 2 2` with an out-of-range index does
not fail at all. -/
theorem c2_counterexample :
    (SafeSlice.Swap (⟨[0], true⟩ : SafeSlice Nat) 0 2).ok = false ∧
    (⟨[0], true⟩ : SafeSlice Nat).appendOnlyAlloc = true ∧
    (SafeSlice.Swap (⟨[0], true⟩ : SafeSlice Nat) 0 2).state.appendOnlyAlloc = false ∧
    (SafeSlice.Swap (⟨[0], true⟩ : SafeSlice Nat) 0 2).copied = true ∧
    (SafeSlice.Swap (⟨[0], true⟩ : SafeSlice Nat) 2 2).ok = true := by
  decide

/-- C2 amended: Remove fails (Go index-out-of-range panic) exactly when
the index is negative or at least the current length, and a failing
Remove leaves the container completely unchanged.  Swap with two
distinct indices fails exactly when one of them is out of range, but
bounds are checked only after the defensive copy: a failing Swap leaves
the contents unchanged while the flag ends up `false` (so a Shared
container is partially mutated), and the copy is made exactly when the
flag was set.  Swap of an index with itself never fails. -/
theorem c2_amended_bounds_behavior {T : Type} (s : SafeSlice T) (index i j : Int)
    (hij : i ≠ j) :
    ((s.Remove index).ok = true ↔ (0 ≤ index ∧ index < (s.data.length : Int))) ∧
    ((s.Remove index).ok = false → (s.Remove index).state = s) ∧
    ((s.Swap i j).ok = true ↔
      (0 ≤ i ∧ i < (s.data.length : Int) ∧ 0 ≤ j ∧ j < (s.data.length : Int))) ∧
    ((s.Swap i j).ok = false →
      (s.Swap i j).state.data = s.data ∧
      (s.Swap i j).state.appendOnlyAlloc = false ∧
      (s.Swap i j).copied = s.appendOnlyAlloc) ∧
    (s.Swap index index).ok = true := by
  refine ⟨remove_ok_iff s index, ?_, ?_, ?_, by simp [SafeSlice.Swap]⟩
  · intro hfail
    by_cases hv : 0 ≤ index ∧ index < (s.data.length : Int)
    · rw [(remove_ok_iff s index).2 hv] at hfail
      exact absurd hfail (by simp)
    · rw [remove_eq_of_invalid s index hv]
  · by_cases hv : 0 ≤ i ∧ i < (s.data.length : Int) ∧ 0 ≤ j ∧ j < (s.data.length : Int)
    · rw [swap_eq_of_valid s i j hij hv.1 hv.2.1 hv.2.2.1 hv.2.2.2]
      simpa using hv
    · rw [swap_eq_of_invalid s i j hij hv]
      simpa using hv
  · intro hfail
    by_cases hv : 0 ≤ i ∧ i < (s.data.length : Int) ∧ 0 ≤ j ∧ j < (s.data.length : Int)
    · rw [swap_eq_of_valid s i j hij hv.1 hv.2.1 hv.2.2.1 hv.2.2.2] at hfail
      exact absurd hfail (by simp)
    · rw [swap_eq_of_invalid s i j hij hv]
      exact ⟨rfl, rfl, rfl⟩

/-- Witness for the amended C2 at a concrete input. -/
theorem c2_amended_witness :
    ((3 : Int) ≠ 4) ∧
    ((SafeSlice.Remove (⟨[1, 2], false⟩ : SafeSlice Nat) 7).ok = false →
      (SafeSlice.Remove (⟨[1, 2], false⟩ : SafeSlice Nat) 7).state
        = (⟨[1, 2], false⟩ : SafeSlice Nat)) :=
  ⟨by decide, (c2_amended_bounds_behavior (⟨[1, 2], false⟩ : SafeSlice Nat) 7 3 4 (by decide)).2.1⟩

/-- C3: the flag state machine.  `New` starts Exclusive
(`appendOnlyAlloc = false`); `Get` moves any state to Shared; `Append`
leaves the state unchanged (Shared stays Shared, Exclusive stays
Exclusive); from Shared, a completed Remove or Swap with distinct
indices moves to Exclusive via the defensive copy; from Exclusive,
Remove, Swap (distinct or equal indices) stay Exclusive with no
defensive copy. -/
theorem c3_flag_state_machine {T : Type} (d : List T) (b : Bool) (x : T) (i j k : Int)
    (hij : i ≠ j) :
    (New T).appendOnlyAlloc = false ∧
    ((⟨d, b⟩ : SafeSlice T).Get).2.appendOnlyAlloc = true ∧
    ((⟨d, b⟩ : SafeSlice T).Append x).appendOnlyAlloc = b ∧
    ((SafeSlice.Remove (⟨d, true⟩ : SafeSlice T) k).ok = true →
      (SafeSlice.Remove (⟨d, true⟩ : SafeSlice T) k).state.appendOnlyAlloc = false ∧
      (SafeSlice.Remove (⟨d, true⟩ : SafeSlice T) k).copied = true) ∧
    ((SafeSlice.Swap (⟨d, true⟩ : SafeSlice T) i j).ok = true →
      (SafeSlice.Swap (⟨d, true⟩ : SafeSlice T) i j).state.appendOnlyAlloc = false ∧
      (SafeSlice.Swap (⟨d, true⟩ : SafeSlice T) i j).copied = true) ∧
    ((SafeSlice.Remove (⟨d, false⟩ : SafeSlice T) k).state.appendOnlyAlloc = false ∧
      (SafeSlice.Remove (⟨d, false⟩ : SafeSlice T) k).copied = false) ∧
    ((SafeSlice.Swap (⟨d, false⟩ : SafeSlice T) i j).state.appendOnlyAlloc = false ∧
      (SafeSlice.Swap (⟨d, false⟩ : SafeSlice T) i j).copied = false) ∧
    ((SafeSlice.Swap (⟨d, false⟩ : SafeSlice T) k k).state.appendOnlyAlloc = false ∧
      (SafeSlice.Swap (⟨d, false⟩ : SafeSlice T) k k).copied = false) := by
  refine ⟨rfl, rfl, rfl, ?_, ?_, ?_, ?_, by simp [SafeSlice.Swap]⟩
  · intro hok
    by_cases hv : 0 ≤ k ∧ k < ((d : List T).length : Int)
    · simp [SafeSlice.Remove, copyDeleteFromArray_eq d k hv.1 hv.2]
    · rw [remove_eq_of_invalid (⟨d, true⟩ : SafeSlice T) k hv] at hok
      exact absurd hok (by simp)
  · intro hok
    by_cases hv : 0 ≤ i ∧ i < ((d : List T).length : Int) ∧ 0 ≤ j ∧ j < ((d : List T).length : Int)
    · rw [swap_eq_of_valid (⟨d, true⟩ : SafeSlice T) i j hij hv.1 hv.2.1 hv.2.2.1 hv.2.2.2]
      exact ⟨rfl, rfl⟩
    · rw [swap_eq_of_invalid (⟨d, true⟩ : SafeSlice T) i j hij hv] at hok
      exact absurd hok (by simp)
  · by_cases hv : 0 ≤ k ∧ k < ((d : List T).length : Int)
    · simp [SafeSlice.Remove, slicesDelete_eq d k hv.1 hv.2]
    · rw [remove_eq_of_invalid (⟨d, false⟩ : SafeSlice T) k hv]
      exact ⟨rfl, rfl⟩
  · by_cases hv : 0 ≤ i ∧ i < ((d : List T).length : Int) ∧ 0 ≤ j ∧ j < ((d : List T).length : Int)
    · rw [swap_eq_of_valid (⟨d, false⟩ : SafeSlice T) i j hij hv.1 hv.2.1 hv.2.2.1 hv.2.2.2]
      exact ⟨rfl, rfl⟩
    · rw [swap_eq_of_invalid (⟨d, false⟩ : SafeSlice T) i j hij hv]
      exact ⟨rfl, rfl⟩

/-- Witness for C3 at a concrete input. -/
theorem c3_witness :
    ((0 : Int) ≠ 1) ∧
    ((SafeSlice.Remove (⟨[8, 9], true⟩ : SafeSlice Nat) 0).ok = true →
      (SafeSlice.Remove (⟨[8, 9], true⟩ : SafeSlice Nat) 0).state.appendOnlyAlloc = false ∧
      (SafeSlice.Remove (⟨[8, 9], true⟩ : SafeSlice Nat) 0).copied = true) :=
  ⟨by decide, (c3_flag_state_machine [8, 9] true 7 0 1 0 (by decide)).2.2.2.1⟩

/-! Operation traces over the functional model, for the temporal claims. -/

/-- One client-visible mutating call, for traces between two `Get` calls. -/
inductive FOp (T : Type) where
  | append (x : T)
  | remove (i : Int)
  | swap (i j : Int)
deriving DecidableEq

/-- Effect of one mutating call on the container. -/
def stepF {T : Type} (s : SafeSlice T) : FOp T → OpResult T
  | .append x => ⟨true, false, s.Append x⟩
  | .remove i => s.Remove i
  | .swap i j => s.Swap i j

/-- The defensive-copy bits of a run of mutating calls, in order. -/
def copiesF {T : Type} (s : SafeSlice T) : List (FOp T) → List Bool
  | [] => []
  | op :: ops => (stepF s op).copied :: copiesF (stepF s op).state ops

/-- An operation that rewrites or removes an existing index: Remove, or
Swap with distinct indices. -/
def isDestructive {T : Type} : FOp T → Prop
  | .append _ => False
  | .remove _ => True
  | .swap i j => i ≠ j

theorem stepF_exclusive {T : Type} (s : SafeSlice T) (op : FOp T)
    (h : s.appendOnlyAlloc = false) :
    (stepF s op).copied = false ∧ (stepF s op).state.appendOnlyAlloc = false := by
  cases op with
  | append x => exact ⟨rfl, by simp [stepF, SafeSlice.Append, h]⟩
  | remove i =>
    rcases hs : slicesDelete s.data i (i + 1) with _ | v <;>
      simp [stepF, SafeSlice.Remove, h, hs]
  | swap i j =>
    by_cases hij : i = j
    · subst hij; simp [stepF, SafeSlice.Swap, h]
    · by_cases hv : 0 ≤ i ∧ i < (s.data.length : Int) ∧ 0 ≤ j ∧ j < (s.data.length : Int)
      · rw [stepF, swap_eq_of_valid s i j hij hv.1 hv.2.1 hv.2.2.1 hv.2.2.2]
        exact ⟨h, rfl⟩
      · rw [stepF, swap_eq_of_invalid s i j hij hv]
        exact ⟨h, rfl⟩

theorem copiesF_exclusive {T : Type} (ops : List (FOp T)) :
    ∀ s : SafeSlice T, s.appendOnlyAlloc = false →
      copiesF s ops = List.replicate ops.length false := by
  induction ops with
  | nil => intro s _; rfl
  | cons op ops ih =>
    intro s h
    obtain ⟨h1, h2⟩ := stepF_exclusive s op h
    simp [copiesF, h1, ih _ h2, List.replicate]

theorem destructive_step_clears {T : Type} (s : SafeSlice T) (dop : FOp T)
    (hs : s.appendOnlyAlloc = true) (hd : isDestructive dop)
    (hok : (stepF s dop).ok = true) :
    (stepF s dop).copied = true ∧ (stepF s dop).state.appendOnlyAlloc = false := by
  cases dop with
  | append x => exact hd.elim
  | remove i =>
    by_cases hv : 0 ≤ i ∧ i < (s.data.length : Int)
    · obtain ⟨d, b⟩ := s
      simp_all [stepF, SafeSlice.Remove, copyDeleteFromArray_eq d i hv.1 hv.2]
    · rw [stepF, remove_eq_of_invalid s i hv] at hok
      exact absurd hok (by simp)
  | swap i j =>
    have hij : i ≠ j := hd
    by_cases hv : 0 ≤ i ∧ i < (s.data.length : Int) ∧ 0 ≤ j ∧ j < (s.data.length : Int)
    · rw [stepF, swap_eq_of_valid s i j hij hv.1 hv.2.1 hv.2.2.1 hv.2.2.2]
      exact ⟨hs, rfl⟩
    · rw [stepF, swap_eq_of_invalid s i j hij hv] at hok
      exact absurd hok (by simp)

/-- C7: copy-then-exclusive.  Starting from a Shared container (as left
by `Get`), the first completed destructive operation pays the defensive
copy, and every destructive operation in any run of further mutating
calls before the next `Get` takes the non-copying branch: the list of
defensive-copy bits of the remaining run is all-false. -/
theorem c7_copy_then_exclusive {T : Type} (s : SafeSlice T) (dop : FOp T)
    (ops : List (FOp T)) (hs : s.appendOnlyAlloc = true) (hd : isDestructive dop)
    (hok : (stepF s dop).ok = true) :
    (stepF s dop).copied = true ∧
    copiesF (stepF s dop).state ops = List.replicate ops.length false := by
  obtain ⟨h1, h2⟩ := destructive_step_clears s dop hs hd hok
  exact ⟨h1, copiesF_exclusive ops _ h2⟩

/-- Witness for C7 at a concrete input. -/
theorem c7_witness :
    (⟨[1, 2, 3], true⟩ : SafeSlice Nat).appendOnlyAlloc = true ∧
    isDestructive (FOp.remove 0 : FOp Nat) ∧
    (stepF (⟨[1, 2, 3], true⟩ : SafeSlice Nat) (FOp.remove 0)).ok = true ∧
    copiesF (stepF (⟨[1, 2, 3], true⟩ : SafeSlice Nat) (FOp.remove 0)).state
        [FOp.remove 0, FOp.append 7, FOp.swap 0 1] = List.replicate 3 false :=
  ⟨rfl, trivial,
    by decide,
    (c7_copy_then_exclusive (⟨[1, 2, 3], true⟩ : SafeSlice Nat) (FOp.remove 0)
      [FOp.remove 0, FOp.append 7, FOp.swap 0 1] rfl trivial (by decide)).2⟩

/-! The front-eviction pattern. -/

/-- Calling `Remove 0` a fixed number of times, as the loop body
`for range a.Get() { a.Remove(0) }` does once per element of the view. -/
def iterRemove0 {T : Type} (s : SafeSlice T) : Nat → SafeSlice T
  | 0 => s
  | n + 1 => iterRemove0 (s.Remove 0).state n

theorem remove_zero_tail {T : Type} (s : SafeSlice T) (h : s.data ≠ []) :
    (s.Remove 0).state.data = s.data.tail ∧ (s.Remove 0).ok = true := by
  have hlen : 0 < s.data.length := List.length_pos.2 h
  have h2 : (0 : Int) < (s.data.length : Int) := by exact_mod_cast hlen
  obtain ⟨d, b⟩ := s
  have hs := slicesDelete_eq d 0 (by omega) h2
  norm_num at hs
  cases b <;>
    simp_all [SafeSlice.Remove, copyDeleteFromArray_eq d 0 (by omega) h2, hs,
      List.drop_one]

theorem iterRemove0_empties {T : Type} :
    ∀ (n : Nat) (s : SafeSlice T), s.data.length = n → (iterRemove0 s n).data = [] := by
  intro n
  induction n with
  | zero =>
    intro s h
    simpa [iterRemove0] using List.length_eq_zero.1 h
  | succ n ih =>
    intro s h
    have hne : s.data ≠ [] := by
      intro hempty
      rw [hempty] at h
      simp at h
    obtain ⟨hdata, _⟩ := remove_zero_tail s hne
    rw [iterRemove0]
    apply ih
    rw [hdata, List.length_tail]
    omega

/-- C8: front eviction.  Take a view with `Get` (its length is the
container's element count at that time), then call `Remove 0` once per
step of iterating that view: after exactly that many steps the container
is logically empty, and a subsequent `Get` returns a view of length 0. -/
theorem c8_front_eviction {T : Type} (s : SafeSlice T) :
    (iterRemove0 (s.Get).2 ((s.Get).1.length)).data = [] ∧
    ((iterRemove0 (s.Get).2 ((s.Get).1.length)).Get).1.length = 0 := by
  have h1 := iterRemove0_empties ((s.Get).1.length) (s.Get).2 rfl
  refine ⟨h1, ?_⟩
  have h2 : ((iterRemove0 (s.Get).2 ((s.Get).1.length)).Get).1
      = (iterRemove0 (s.Get).2 ((s.Get).1.length)).data := rfl
  rw [h2, h1]
  rfl

/-!
Heap model for view stability (C1).  Backing allocations are made
explicit: the heap maps allocation ids to element lists, the container
(`cur`, `flag`) is the `SafeSlice` struct holding a pointer to its
current backing allocation, and every slice handed out by `Get` is a
view: a pointer plus the contents it had when it was handed out.  `next`
is the next fresh allocation id.  The step function is the same Go code
as above, but performed on the heap:

- `append x realloc`: `s.data = append(s.data, elem)`.  Whether Go's
  append grows in place or moves to a fresh allocation depends on spare
  capacity, so the model takes the choice as the Boolean `realloc` and
  the stability theorem quantifies over it.
- `remove i`: the two branches of `Remove`; the defensive-copy branch
  writes the result into a fresh allocation and clears the flag, the
  in-place branch overwrites the current allocation.  On a panic no
  assignment to the container has happened.
- `swap i j`: the fast path, then (in this order, as in the source) the
  defensive copy into a fresh allocation with the flag cleared, then the
  bounds-sensitive exchange written into the current allocation.  A
  panicking exchange writes nothing, but the copy it may have made
  persists.
- `get`: records a new view of the current allocation with its current
  contents and sets the flag.
-/

/-- A slice returned by `Get`: the allocation it points at and the
contents (hence also length) it reported when it was returned. -/
structure View (T : Type) where
  alloc : Nat
  snapshot : List T
deriving DecidableEq

/-- Global state of the heap model. -/
structure GoState (T : Type) where
  heap : Nat → List T
  next : Nat
  cur : Nat
  flag : Bool
  views : List (View T)

/-- Client calls on the container, with Go's append-reallocation choice
made explicit. -/
inductive Op (T : Type) where
  | append (x : T) (realloc : Bool)
  | remove (i : Int)
  | swap (i j : Int)
  | get
deriving DecidableEq

/-- Heap update at one allocation id. -/
def hupd {T : Type} (h : Nat → List T) (a : Nat) (c : List T) : Nat → List T :=
  fun b => if b = a then c else h b

/-- One operation of src/safeslice.go on the heap model. -/
def step {T : Type} (σ : GoState T) : Op T → GoState T
  | .append x r =>
    if r then
      ⟨hupd σ.heap σ.next (σ.heap σ.cur ++ [x]), σ.next + 1, σ.next, σ.flag, σ.views⟩
    else
      ⟨hupd σ.heap σ.cur (σ.heap σ.cur ++ [x]), σ.next, σ.cur, σ.flag, σ.views⟩
  | .remove i =>
    if σ.flag then
      match copyDeleteFromArray (σ.heap σ.cur) i with
      | some b => ⟨hupd σ.heap σ.next b, σ.next + 1, σ.next, false, σ.views⟩
      | none => σ
    else
      match slicesDelete (σ.heap σ.cur) i (i + 1) with
      | some b => ⟨hupd σ.heap σ.cur b, σ.next, σ.cur, false, σ.views⟩
      | none => σ
  | .swap i j =>
    if i = j then
      σ
    else
      let σ1 : GoState T :=
        if σ.flag then
          ⟨hupd σ.heap σ.next (σ.heap σ.cur), σ.next + 1, σ.next, false, σ.views⟩
        else
          σ
      let d := σ1.heap σ1.cur
      if 0 ≤ i ∧ i < (d.length : Int) ∧ 0 ≤ j ∧ j < (d.length : Int) then
        ⟨hupd σ1.heap σ1.cur (listSwap d i.toNat j.toNat), σ1.next, σ1.cur, σ1.flag, σ1.views⟩
      else
        σ1
  | .get =>
    ⟨σ.heap, σ.next, σ.cur, true, σ.views ++ [⟨σ.cur, σ.heap σ.cur⟩]⟩

/-- The state `New` creates: one allocation holding the empty list, no
views, flag clear. -/
def initState (T : Type) : GoState T :=
  ⟨fun _ => [], 1, 0, false, []⟩

/-- Running a call sequence from a fresh container. -/
def run {T : Type} (ops : List (Op T)) : GoState T :=
  List.foldl step (initState T) ops

/-- The induction invariant: allocation ids are in range, every view
still reads back its snapshot, and when the flag is clear no view
aliases the container's current allocation. -/
def HeapInv {T : Type} (σ : GoState T) : Prop :=
  σ.cur < σ.next ∧
  (∀ v ∈ σ.views, v.alloc < σ.next) ∧
  (∀ v ∈ σ.views, (σ.heap v.alloc).take v.snapshot.length = v.snapshot) ∧
  (σ.flag = false → ∀ v ∈ σ.views, v.alloc ≠ σ.cur)

theorem hupd_ne {T : Type} (h : Nat → List T) (a b : Nat) (c : List T) (hab : b ≠ a) :
    hupd h a c b = h b := by
  simp [hupd, hab]

theorem take_stable_append {T : Type} (l : List T) (t : List T) (x : T)
    (h : l.take t.length = t) :
    (l ++ [x]).take t.length = t := by
  have hlen : t.length ≤ l.length := by
    have := congrArg List.length h
    rw [List.length_take] at this
    omega
  rw [List.take_append_of_le_length hlen, h]

theorem hupd_self {T : Type} (h : Nat → List T) (a : Nat) (c : List T) :
    hupd h a c a = c := by
  simp [hupd]

theorem heapInv_write_cur {T : Type} (σ : GoState T) (c : List T) (h : HeapInv σ)
    (hnoalias : ∀ v ∈ σ.views, v.alloc ≠ σ.cur) :
    HeapInv ⟨hupd σ.heap σ.cur c, σ.next, σ.cur, σ.flag, σ.views⟩ := by
  obtain ⟨h1, h2, h3, _⟩ := h
  refine ⟨h1, h2, ?_, fun _ v hv => hnoalias v hv⟩
  intro v hv
  dsimp only
  rw [hupd_ne _ _ _ _ (hnoalias v hv)]
  exact h3 v hv

theorem heapInv_fresh {T : Type} (σ : GoState T) (c : List T) (f : Bool) (h : HeapInv σ) :
    HeapInv ⟨hupd σ.heap σ.next c, σ.next + 1, σ.next, f, σ.views⟩ := by
  obtain ⟨h1, h2, h3, _⟩ := h
  refine ⟨?_, ?_, ?_, ?_⟩
  · show σ.next < σ.next + 1
    omega
  · intro v hv
    show v.alloc < σ.next + 1
    have := h2 v hv
    omega
  · intro v hv
    dsimp only
    rw [hupd_ne _ _ _ _ (Nat.ne_of_lt (h2 v hv))]
    exact h3 v hv
  · intro _ v hv
    exact Nat.ne_of_lt (h2 v hv)

theorem heapInv_step {T : Type} (σ : GoState T) (op : Op T) (h : HeapInv σ) :
    HeapInv (step σ op) := by
  obtain ⟨h1, h2, h3, h4⟩ := h
  cases op with
  | append x r =>
    cases r
    · refine ⟨h1, h2, ?_, fun hf v hv => h4 hf v hv⟩
      intro v hv
      show (hupd σ.heap σ.cur (σ.heap σ.cur ++ [x]) v.alloc).take v.snapshot.length = v.snapshot
      by_cases hvc : v.alloc = σ.cur
      · rw [hvc, hupd_self]
        exact take_stable_append _ _ _ (hvc ▸ h3 v hv)
      · rw [hupd_ne _ _ _ _ hvc]
        exact h3 v hv
    · exact heapInv_fresh σ _ σ.flag ⟨h1, h2, h3, h4⟩
  | remove i =>
    by_cases hf : σ.flag
    · rcases hc : copyDeleteFromArray (σ.heap σ.cur) i with _ | b
      · simpa [step, hf, hc] using ⟨h1, h2, h3, h4⟩
      · rw [show step σ (Op.remove i)
            = ⟨hupd σ.heap σ.next b, σ.next + 1, σ.next, false, σ.views⟩ by
          simp [step, hf, hc]]
        exact heapInv_fresh σ b false ⟨h1, h2, h3, h4⟩
    · have hflag : σ.flag = false := by simpa using hf
      rcases hc : slicesDelete (σ.heap σ.cur) i (i + 1) with _ | b
      · simpa [step, hflag, hc] using ⟨h1, h2, h3, h4⟩
      · rw [show step σ (Op.remove i)
            = ⟨hupd σ.heap σ.cur b, σ.next, σ.cur, false, σ.views⟩ by
          simp [step, hflag, hc]]
        have hw := heapInv_write_cur σ b ⟨h1, h2, h3, h4⟩ (h4 hflag)
        rwa [hflag] at hw
  | swap i j =>
    by_cases hij : i = j
    · subst hij
      simpa [step] using ⟨h1, h2, h3, h4⟩
    · by_cases hf : σ.flag
      · have hd : hupd σ.heap σ.next (σ.heap σ.cur) σ.next = σ.heap σ.cur := hupd_self _ _ _
        have hσ1 : HeapInv ⟨hupd σ.heap σ.next (σ.heap σ.cur), σ.next + 1, σ.next, false,
            σ.views⟩ := heapInv_fresh σ _ false ⟨h1, h2, h3, h4⟩
        by_cases hv : 0 ≤ i ∧ i < ((σ.heap σ.cur).length : Int)
            ∧ 0 ≤ j ∧ j < ((σ.heap σ.cur).length : Int)
        · rw [show step σ (Op.swap i j)
              = ⟨hupd (hupd σ.heap σ.next (σ.heap σ.cur)) σ.next
                    (listSwap (σ.heap σ.cur) i.toNat j.toNat),
                  σ.next + 1, σ.next, false, σ.views⟩ by
            simp [step, hij, hf, hd, hv]]
          exact heapInv_write_cur
            ⟨hupd σ.heap σ.next (σ.heap σ.cur), σ.next + 1, σ.next, false, σ.views⟩
            _ hσ1 (fun v hvm => Nat.ne_of_lt (h2 v hvm))
        · rw [show step σ (Op.swap i j)
              = ⟨hupd σ.heap σ.next (σ.heap σ.cur), σ.next + 1, σ.next, false, σ.views⟩ by
            simp [step, hij, hf, hd, hv]]
          exact hσ1
      · have hflag : σ.flag = false := by simpa using hf
        by_cases hv : 0 ≤ i ∧ i < ((σ.heap σ.cur).length : Int)
            ∧ 0 ≤ j ∧ j < ((σ.heap σ.cur).length : Int)
        · rw [show step σ (Op.swap i j)
              = ⟨hupd σ.heap σ.cur (listSwap (σ.heap σ.cur) i.toNat j.toNat),
                  σ.next, σ.cur, σ.flag, σ.views⟩ by
            simp [step, hij, hflag, hv]]
          exact heapInv_write_cur σ _ ⟨h1, h2, h3, h4⟩ (h4 hflag)
        · simpa [step, hij, hflag, hv] using ⟨h1, h2, h3, h4⟩
  | get =>
    refine ⟨h1, ?_, ?_, ?_⟩
    · intro v hv
      rcases List.mem_append.1 hv with hv1 | hv2
      · exact h2 v hv1
      · rw [List.mem_singleton.1 hv2]
        exact h1
    · intro v hv
      rcases List.mem_append.1 hv with hv1 | hv2
      · exact h3 v hv1
      · rw [List.mem_singleton.1 hv2]
        exact List.take_length _
    · intro hfl
      exact absurd hfl (by simp [step])

theorem heapInv_initState (T : Type) : HeapInv (initState T) := by
  refine ⟨Nat.one_pos, ?_, ?_, ?_⟩ <;> simp [initState]

theorem heapInv_run {T : Type} (ops : List (Op T)) : HeapInv (run ops) := by
  suffices hstep : ∀ σ : GoState T, HeapInv σ → HeapInv (List.foldl step σ ops) from
    hstep (initState T) (heapInv_initState T)
  induction ops with
  | nil => exact fun σ h => h
  | cons op ops ih =>
    intro σ h
    exact ih (step σ op) (heapInv_step σ op h)

theorem views_mono_step {T : Type} (σ : GoState T) (op : Op T) (v : View T)
    (hv : v ∈ σ.views) : v ∈ (step σ op).views := by
  cases op with
  | append x r => cases r <;> exact hv
  | remove i =>
    by_cases hf : σ.flag
    · rcases hc : copyDeleteFromArray (σ.heap σ.cur) i with _ | b <;>
        simpa [step, hf, hc] using hv
    · have hflag : σ.flag = false := by simpa using hf
      rcases hc : slicesDelete (σ.heap σ.cur) i (i + 1) with _ | b <;>
        simpa [step, hflag, hc] using hv
  | swap i j =>
    by_cases hij : i = j
    · simpa [step, hij] using hv
    · by_cases hf : σ.flag
      · by_cases hcond : 0 ≤ i ∧ i < ((σ.heap σ.cur).length : Int)
            ∧ 0 ≤ j ∧ j < ((σ.heap σ.cur).length : Int)
        · simpa [step, hij, hf, hupd_self, hcond] using hv
        · simpa [step, hij, hf, hupd_self, hcond] using hv
      · have hflag : σ.flag = false := by simpa using hf
        by_cases hcond : 0 ≤ i ∧ i < ((σ.heap σ.cur).length : Int)
            ∧ 0 ≤ j ∧ j < ((σ.heap σ.cur).length : Int)
        · simpa [step, hij, hflag, hcond] using hv
        · simpa [step, hij, hflag, hcond] using hv
  | get =>
    exact List.mem_append_left _ hv

theorem views_mono_run {T : Type} (σ : GoState T) (ops : List (Op T)) (v : View T)
    (hv : v ∈ σ.views) : v ∈ (List.foldl step σ ops).views := by
  induction ops generalizing σ with
  | nil => exact hv
  | cons op ops ih => exact ih (step σ op) (views_mono_step σ op v hv)

theorem run_append_ops {T : Type} (l1 l2 : List (Op T)) :
    run (l1 ++ l2) = List.foldl step (run l1) l2 :=
  List.foldl_append step (initState T) l1 l2

/-- C1: view stability.  For any call sequence, the view returned by a
`Get` at time T records exactly the container's contents (hence its
length and every element) at time T; and whatever Append / Remove / Swap
calls follow - with either append-reallocation outcome, in-range or
out-of-range indices - reading the view's allocation back through its
recorded length still gives exactly that snapshot, so the view's
observable length and elements never change while it is held. -/
theorem c1_view_stability {T : Type} (ops1 ops2 : List (Op T)) :
    ((run (ops1 ++ [Op.get])).views
      = (run ops1).views ++ [⟨(run ops1).cur, (run ops1).heap (run ops1).cur⟩]) ∧
    (∀ v : View T, v ∈ (run ops1).views →
      ((run (ops1 ++ ops2)).heap v.alloc).take v.snapshot.length = v.snapshot) := by
  constructor
  · rw [run_append_ops]
    rfl
  · intro v hv
    have hv2 : v ∈ (run (ops1 ++ ops2)).views := by
      rw [run_append_ops]
      exact views_mono_run (run ops1) ops2 v hv
    exact (heapInv_run (ops1 ++ ops2)).2.2.1 v hv2

/-- Witness for C1 at a concrete input: the view taken after one append
survives a front removal, an in-place append and a swap. -/
theorem c1_witness :
    (⟨0, [1, 2]⟩ : View Nat) ∈ (run [Op.append 1 false, Op.append 2 false, Op.get]).views ∧
    ((run ([Op.append 1 false, Op.append 2 false, Op.get]
        ++ [Op.remove 0, Op.append 3 false, Op.swap 0 1])).heap 0).take 2 = [1, 2] :=
  ⟨by decide,
    (c1_view_stability [Op.append 1 false, Op.append 2 false, Op.get]
        [Op.remove 0, Op.append 3 false, Op.swap 0 1]).2 ⟨0, [1, 2]⟩ (by decide)⟩
